import Mathlib

/-!
Shallow embedding of `src/main.rs` of the tree-command repository: a CLI tool
that walks a directory tree, groups entries by parent directory, sorts each
group (directories first, then case-insensitive name), and prints the tree
with box-drawing prefixes, annotating each file with a "responsibility"
string extracted from its first non-blank line.

Modelling conventions:
- Rust `String` values (file names, lines of text, output lines) are modelled
  as `List Char` so that every operation is kernel-computable.  Character
  classification (`is_whitespace`, `to_lowercase`) is modelled at the ASCII
  level, which is faithful on ASCII inputs.
- Filesystem paths are lists of name components; the filesystem root `/` is
  the empty list.  `canonicalize` already happened before `collect_entries`
  runs, so the target is given as such a component list.
- The filesystem itself is an inductive tree `FS`.  A directory carries a
  `readable` flag: `false` models a directory whose `read_dir` fails during
  the walk (walkdir then yields an `Err` which `filter_map(Result::ok)`
  drops, so its children are skipped).  File contents are modelled by a
  separate read function `rd : FPath → Option (List Str)` passed to the
  extractor; `none` models a file that cannot be opened.
- `HashMap<PathBuf, Vec<DirEntry>>` is modelled as an association list
  `EntryMap`; the list order stands for the (irrelevant, lookup-only)
  hash-map iteration order.
- The `unwrap` panic in `collect_entries` is modelled by an `Option` result
  (`none` = panic), and `print_tree`'s recursion through map lookups is given
  a fuel parameter (the Rust recursion terminates because the filesystem is
  finite; any fuel at least the tree depth gives the full output).
-/

abbrev Str := List Char

abbrev FPath := List Str

/-- Model of `str::trim`: remove leading and trailing whitespace. -/
def trimStr (s : Str) : Str :=
  ((s.dropWhile Char.isWhitespace).reverse.dropWhile Char.isWhitespace).reverse

/-- Model of `char::to_lowercase` at the ASCII level (`A`-`Z` map down). -/
def lowerChar (c : Char) : Char :=
  if 65 ≤ c.toNat ∧ c.toNat ≤ 90 then Char.ofNat (c.toNat + 32) else c

/-- Model of `str::to_lowercase`. -/
def toLowerStr (s : Str) : Str := s.map lowerChar

/-- Model of `str::starts_with` on a literal pattern. -/
def startsWithStr : Str → Str → Bool
  | _, [] => true
  | [], _ :: _ => false
  | c :: cs, d :: ds => c = d && startsWithStr cs ds

/-- Model of `Ord` on Rust strings: lexicographic comparison by code point
(this agrees with Rust's byte-wise comparison of the UTF-8 encodings).
`strLt a b = true` means `a < b`. -/
def strLt : Str → Str → Bool
  | _, [] => false
  | [], _ :: _ => true
  | a :: as, b :: bs => if a = b then strLt as bs else decide (a.toNat < b.toNat)

/-- The filesystem as seen by the walk.  `readable = false` on a directory
models a `read_dir` failure: walkdir then yields an error entry (dropped by
`filter_map(Result::ok)`) and none of its children. -/
inductive FS where
  | file (name : Str)
  | dir (name : Str) (readable : Bool) (children : List FS)

def FS.name : FS → Str
  | .file n => n
  | .dir n _ _ => n

def FS.isDirFS : FS → Bool
  | .file _ => false
  | .dir _ _ _ => true

/-- Model of `walkdir::DirEntry`: the entry's path and its file type's
`is_dir` flag (the entry's file name is recomputed from the path, as
`DirEntry::file_name` does). -/
structure DirEntry where
  path : FPath
  isDir : Bool
deriving Repr, DecidableEq

/-- Model of `DirEntry::file_name`: the last path component, or the full path
for the filesystem root `/` (which has no last component). -/
def entryFileName (p : FPath) : Str := p.getLastD "/".toList

def DirEntry.fileName (e : DirEntry) : Str := entryFileName e.path

/-- Model of `Path::parent`: `None` exactly for the filesystem root. -/
def parentOf : FPath → Option FPath
  | [] => none
  | p => some p.dropLast

/-- Model of `is_hidden` (src/main.rs:128-134): the file name starts with a
dot.  (Rust returns `false` for non-UTF-8 names; all modelled names are
valid strings.) -/
def is_hidden (nm : Str) : Bool :=
  match nm with
  | [] => false
  | c :: _ => c = '.'

mutual
/-- Model of the `WalkDir::new(target_dir)` iterator composed with
`filter_entry(|e| !is_hidden(e)).filter_map(Result::ok)`: depth-first,
a directory before its contents, hidden entries pruned (their subtrees are
not descended into), unreadable directories contributing no children. -/
def walk (path : FPath) : FS → List DirEntry
  | .file _ =>
    if is_hidden (entryFileName path) then [] else [⟨path, false⟩]
  | .dir _ readOk children =>
    if is_hidden (entryFileName path) then []
    else ⟨path, true⟩ :: (if readOk then walkList path children else [])

def walkList (dp : FPath) : List FS → List DirEntry
  | [] => []
  | c :: cs => walk (dp ++ [c.name]) c ++ walkList dp cs
end

/-- Model of `HashMap<PathBuf, Vec<DirEntry>>` as an association list; the
list order models the hash map's (lookup-irrelevant) iteration order. -/
abbrev EntryMap := List (FPath × List DirEntry)

/-- Model of `HashMap::get`: the value stored under the first matching key. -/
def lookupMap : EntryMap → FPath → Option (List DirEntry)
  | [], _ => none
  | (k1, v) :: rest, k => if k1 == k then some v else lookupMap rest k

/-- Model of `entries.entry(parent).or_default().push(entry)`. -/
def pushEntry : EntryMap → FPath → DirEntry → EntryMap
  | [], k, e => [(k, [e])]
  | (k1, v) :: rest, k, e =>
    if k1 == k then (k1, v ++ [e]) :: rest else (k1, v) :: pushEntry rest k e

/-- Model of the insertion loop of `collect_entries`: each walked entry is
pushed under `entry.path().parent().unwrap()`; `none` models the panic of
`unwrap` when the entry's path has no parent. -/
def insertAll : EntryMap → List DirEntry → Option EntryMap
  | m, [] => some m
  | m, e :: rest =>
    match parentOf e.path with
    | none => none
    | some p => insertAll (pushEntry m p e) rest

/-- Model of the sort comparator (src/main.rs:79-89):
`a.file_type().is_dir().cmp(&b.file_type().is_dir()).reverse()
 .then_with(case-insensitive name compare)`, turned into the Boolean
"not Greater" relation that `sort_by` sorts by. -/
def entry_le (a b : DirEntry) : Bool :=
  if a.isDir = b.isDir then
    !(strLt (toLowerStr b.fileName) (toLowerStr a.fileName))
  else a.isDir

/-- Stable insertion of an entry into a list sorted by `entry_le`: the new
element goes before the first element it compares `le` to, so earlier
elements win ties — the stability contract of Rust's `sort_by`. -/
def insertLe (e : DirEntry) : List DirEntry → List DirEntry
  | [] => [e]
  | x :: xs => if entry_le e x then e :: x :: xs else x :: insertLe e xs

/-- Model of `Vec::sort_by` with the comparator above.  `sort_by` is a
stable sort; a stable sort's output is uniquely determined by the input and
the comparator, so this stable insertion sort is an exact model. -/
def sortEntries : List DirEntry → List DirEntry
  | [] => []
  | e :: rest => insertLe e (sortEntries rest)

/-- Model of the post-walk sorting loop (`vec.sort_by(...)` on every
value of the map). -/
def sortValues (m : EntryMap) : EntryMap :=
  m.map (fun kv => (kv.1, sortEntries kv.2))

/-- Model of `collect_entries` (src/main.rs:61-93): seed the map with the
root key, insert every walked entry under its parent, then sort every value.
`none` models the `unwrap` panic. -/
def collect_entries (tpath : FPath) (fs : FS) : Option EntryMap :=
  (insertAll [(tpath, [])] (walk tpath fs)).map sortValues

def respFallback : Str := "No responsibility comment".toList

/-- The character class stripped from the front of a responsibility comment:
whitespace, slashes and hashes. -/
def markChar (c : Char) : Bool := c.isWhitespace || c = '/' || c = '#'

/-- Model of the line-scanning loop of `get_responsibility`
(src/main.rs:139-152): skip blank lines; at the first non-blank line, if it
starts with a comment marker return it with all leading whitespace, `/` and
`#` stripped, otherwise fall back. -/
def scanLines : List Str → Str
  | [] => respFallback
  | line :: rest =>
    let t := trimStr line
    if t.isEmpty then scanLines rest
    else if startsWithStr t "//".toList || startsWithStr t "#".toList then
      t.dropWhile markChar
    else respFallback

/-- Model of `get_responsibility` (src/main.rs:136-155).  `rd` models
`File::open` + `BufReader::lines`: `none` is a file that cannot be opened. -/
def get_responsibility (rd : FPath → Option (List Str)) (p : FPath) : Str :=
  match rd p with
  | some ls => scanLines ls
  | none => respFallback

/-- One 4-character unit of the line prefix, per ancestor level. -/
def pfxUnit (lastFlag : Bool) : Str :=
  if lastFlag then "    ".toList else "│   ".toList

def unitsStr : List Bool → Str
  | [] => []
  | b :: rest => pfxUnit b ++ unitsStr rest

/-- Branch connector for the current entry. -/
def branchStr (lastFlag : Bool) : Str :=
  if lastFlag then "└── ".toList else "├── ".toList

/-- The full line prefix built by the loop in `print_tree`
(src/main.rs:101-113). -/
def linePfx (st : List Bool) (lastFlag : Bool) : Str :=
  unitsStr st ++ branchStr lastFlag

def sepStr : Str := " - ".toList

/-- The body of `print_tree`'s `for` loop over one sibling list: one output
line per child (`is_last` iff no siblings remain), recursing into
directories through `rcall` (the tied-back recursive call at one less
fuel). -/
def print_list (rcall : FPath → List Bool → List Str)
    (rd : FPath → Option (List Str)) (st : List Bool) :
    List DirEntry → List Str
  | [] => []
  | e :: rest =>
    let lastFlag := rest.isEmpty
    let lp := linePfx st lastFlag
    if e.isDir then
      (lp ++ e.fileName) ::
        (rcall e.path (st ++ [lastFlag]) ++ print_list rcall rd st rest)
    else
      (lp ++ e.fileName ++ sepStr ++ get_responsibility rd e.path) ::
        print_list rcall rd st rest

/-- Model of `print_tree` (src/main.rs:95-126), returning the printed lines
in order.  A missing key is a defensive no-op.  The Rust recursion
terminates because the filesystem is finite; here a fuel parameter bounds
the depth, and any fuel at least the tree depth yields the full output. -/
def print_tree (rd : FPath → Option (List Str)) :
    Nat → EntryMap → FPath → List Bool → List Str
  | 0, _, _, _ => []
  | fuel + 1, m, path, st =>
    match lookupMap m path with
    | none => []
    | some children => print_list (fun p s => print_tree rd fuel m p s) rd st children

def canonErrMsg : Str := "Error: Could not access target directory".toList

def panicMsg : Str := "panicked: called unwrap on a None value".toList

/-- Model of `main` after CLI parsing (src/main.rs:49-58): `canon` is the
result of `Path::canonicalize` (`none` = fatal setup error, printed to
stderr with non-zero exit); a `panic` inside `collect_entries` is the other
failure mode. -/
def run (rd : FPath → Option (List Str)) (canon : Option (FPath × FS))
    (fuel : Nat) : Except Str (List Str) :=
  match canon with
  | none => Except.error canonErrMsg
  | some (tpath, fs) =>
    match collect_entries tpath fs with
    | none => Except.error panicMsg
    | some m => Except.ok (print_tree rd fuel m tpath [])

/-! ### Order properties of the comparator -/

theorem charToNat_inj {a b : Char} (h : a.toNat = b.toNat) : a = b := by
  unfold Char.toNat at h
  exact Char.eq_of_val_eq (UInt32.eq_of_val_eq (Fin.eq_of_val_eq h))

theorem strLt_asymm : ∀ a b : Str, strLt a b = true → strLt b a = false
  | _, [], h => by simp [strLt] at h
  | [], _ :: _, _ => by simp [strLt]
  | a :: as, b :: bs, h => by
    by_cases hab : a = b
    · subst hab
      simp only [strLt, if_pos rfl] at h ⊢
      exact strLt_asymm as bs h
    · simp only [strLt, if_neg hab, if_neg (Ne.symm hab),
        decide_eq_true_eq, decide_eq_false_iff_not] at h ⊢
      omega

theorem strLt_trans : ∀ a b c : Str, strLt a b = true → strLt b c = true → strLt a c = true
  | _, [], _, h1, _ => by simp [strLt] at h1
  | _, _ :: _, [], _, h2 => by simp [strLt] at h2
  | [], _ :: _, _ :: _, _, _ => by simp [strLt]
  | a :: as, b :: bs, c :: cs, h1, h2 => by
    by_cases hab : a = b <;> by_cases hbc : b = c
    · subst hab; subst hbc
      simp only [strLt, if_pos rfl] at h1 h2 ⊢
      exact strLt_trans as bs cs h1 h2
    · subst hab
      simp only [strLt, if_pos rfl, if_neg hbc] at h1 h2 ⊢
      exact h2
    · subst hbc
      simp only [strLt, if_neg hab] at h1 ⊢
      exact h1
    · simp only [strLt, if_neg hab, if_neg hbc, decide_eq_true_eq] at h1 h2
      by_cases hac : a = c
      · subst hac; omega
      · simp only [strLt, if_neg hac, decide_eq_true_eq]
        omega

theorem strLt_connex : ∀ a b : Str, strLt a b = false → strLt b a = false → a = b
  | [], [], _, _ => rfl
  | [], _ :: _, h1, _ => by simp [strLt] at h1
  | _ :: _, [], _, h2 => by simp [strLt] at h2
  | a :: as, b :: bs, h1, h2 => by
    by_cases hab : a = b
    · subst hab
      simp only [strLt, if_pos rfl] at h1 h2
      rw [strLt_connex as bs h1 h2]
    · exfalso
      simp only [strLt, if_neg hab, if_neg (Ne.symm hab),
        decide_eq_false_iff_not] at h1 h2
      exact hab (charToNat_inj (by omega))

theorem strNle_trans {x y z : Str} (h1 : strLt y x = false) (h2 : strLt z y = false) :
    strLt z x = false := by
  cases hzx : strLt z x
  · rfl
  · exfalso
    cases hxy : strLt x y
    · have hx := strLt_connex x y hxy h1
      subst hx
      rw [hzx] at h2
      exact Bool.noConfusion h2
    · have := strLt_trans z x y hzx hxy
      rw [h2] at this
      exact Bool.noConfusion this

theorem entry_le_trans (a b c : DirEntry) (h1 : entry_le a b = true)
    (h2 : entry_le b c = true) : entry_le a c = true := by
  unfold entry_le at h1 h2 ⊢
  cases ha : a.isDir <;> cases hb : b.isDir <;> cases hc : c.isDir <;>
      (try simp [ha, hb, hc, Bool.not_eq_true'] at h1 h2 ⊢) <;>
    first
      | rfl
      | exact strNle_trans h1 h2

theorem entry_le_total (a b : DirEntry) : (entry_le a b || entry_le b a) = true := by
  unfold entry_le
  by_cases h : a.isDir = b.isDir
  · rw [if_pos h, if_pos h.symm]
    cases hx : strLt (toLowerStr b.fileName) (toLowerStr a.fileName)
    · simp
    · simp [strLt_asymm _ _ hx]
  · rw [if_neg h, if_neg (fun hh => h hh.symm)]
    cases ha : a.isDir <;> cases hb : b.isDir <;> simp_all

/-! ### The stable sort: membership and sortedness -/

theorem mem_insertLe (e x : DirEntry) (l : List DirEntry) :
    x ∈ insertLe e l ↔ x = e ∨ x ∈ l := by
  induction l with
  | nil => simp [insertLe]
  | cons y ys ih =>
    unfold insertLe
    split
    · simp
    · simp only [List.mem_cons, ih]
      tauto

theorem pairwise_insertLe (e : DirEntry) (l : List DirEntry)
    (h : l.Pairwise (fun a b => entry_le a b = true)) :
    (insertLe e l).Pairwise (fun a b => entry_le a b = true) := by
  induction l with
  | nil => simp [insertLe]
  | cons y ys ih =>
    rw [List.pairwise_cons] at h
    unfold insertLe
    split
    · rename_i hle
      rw [List.pairwise_cons]
      refine ⟨?_, List.pairwise_cons.mpr h⟩
      intro z hz
      rcases List.mem_cons.mp hz with hz1 | hz2
      · rw [hz1]; exact hle
      · exact entry_le_trans e y z hle (h.1 z hz2)
    · rename_i hnle
      rw [List.pairwise_cons]
      refine ⟨?_, ih h.2⟩
      intro z hz
      rcases (mem_insertLe e z ys).mp hz with hz1 | hz2
      · rw [hz1]
        have htot := entry_le_total e y
        cases hey : entry_le e y
        · rw [hey] at htot; simpa using htot
        · exact absurd hey hnle
      · exact h.1 z hz2

theorem sortEntries_pairwise (l : List DirEntry) :
    (sortEntries l).Pairwise (fun a b => entry_le a b = true) := by
  induction l with
  | nil => simp [sortEntries]
  | cons e rest ih => exact pairwise_insertLe e (sortEntries rest) ih

theorem mem_sortEntries (x : DirEntry) (l : List DirEntry) :
    x ∈ sortEntries l ↔ x ∈ l := by
  induction l with
  | nil => simp [sortEntries]
  | cons e rest ih =>
    unfold sortEntries
    rw [mem_insertLe, ih, List.mem_cons]

/-! ### Properties of the walk -/

theorem entryFileName_concat (p : FPath) (nm : Str) :
    entryFileName (p ++ [nm]) = nm := by
  unfold entryFileName
  exact List.getLastD_concat _ _ _

theorem walk_root_not_hidden {path : FPath} {fs : FS} {e : DirEntry}
    (h : e ∈ walk path fs) : is_hidden (entryFileName path) = false := by
  cases hh : is_hidden (entryFileName path)
  · rfl
  · exfalso
    cases fs <;> simp [walk, hh] at h

mutual
theorem walk_path_shape : ∀ (path : FPath) (fs : FS) (e : DirEntry), e ∈ walk path fs →
    ∃ rel, e.path = path ++ rel ∧ ∀ nm ∈ rel, is_hidden nm = false
  | path, .file n, e, h => by
    unfold walk at h
    cases hh : is_hidden (entryFileName path) <;> simp [hh] at h
    exact ⟨[], by simp [h], by simp⟩
  | path, .dir n readOk cs, e, h => by
    unfold walk at h
    cases hh : is_hidden (entryFileName path) <;> simp [hh] at h
    rcases h with h | h
    · exact ⟨[], by simp [h], by simp⟩
    · cases readOk with
      | false => simp at h
      | true =>
        exact walkList_path_shape path cs e h.2

theorem walkList_path_shape : ∀ (dp : FPath) (cs : List FS) (e : DirEntry), e ∈ walkList dp cs →
    ∃ rel, e.path = dp ++ rel ∧ ∀ nm ∈ rel, is_hidden nm = false
  | dp, [], e, h => by simp [walkList] at h
  | dp, c :: cs, e, h => by
    unfold walkList at h
    rcases List.mem_append.mp h with h1 | h2
    · obtain ⟨rel, hrel, hall⟩ := walk_path_shape (dp ++ [c.name]) c e h1
      have hname : is_hidden c.name = false := by
        have hroot := walk_root_not_hidden h1
        rwa [entryFileName_concat] at hroot
      refine ⟨c.name :: rel, ?_, ?_⟩
      · rw [hrel, List.append_assoc]
        rfl
      · intro nm hnm
        rcases List.mem_cons.mp hnm with h3 | h3
        · rw [h3]; exact hname
        · exact hall nm h3
    · exact walkList_path_shape dp cs e h2
end

theorem walk_entry_not_hidden {path : FPath} {fs : FS} {e : DirEntry}
    (h : e ∈ walk path fs) : is_hidden e.fileName = false := by
  obtain ⟨rel, hp, hall⟩ := walk_path_shape path fs e h
  rcases List.eq_nil_or_concat rel with hrel | ⟨ys, y, hrel⟩
  · subst hrel
    simp only [List.append_nil] at hp
    unfold DirEntry.fileName
    rw [hp]
    exact walk_root_not_hidden h
  · rw [List.concat_eq_append] at hrel
    subst hrel
    unfold DirEntry.fileName
    rw [hp, ← List.append_assoc, entryFileName_concat]
    exact hall y (by simp)

/-! ### Properties of the entry map -/

theorem lookup_pushEntry (m : EntryMap) (k : FPath) (e : DirEntry) (k2 : FPath) :
    lookupMap (pushEntry m k e) k2 =
      if k2 = k then some ((lookupMap m k).getD [] ++ [e]) else lookupMap m k2 := by
  induction m with
  | nil =>
    by_cases hk : k2 = k
    · subst hk
      simp [pushEntry, lookupMap]
    · simp [pushEntry, lookupMap, hk, Ne.symm hk]
  | cons kv rest ih =>
    obtain ⟨k1, v⟩ := kv
    by_cases h1 : k1 = k
    · subst h1
      by_cases h2 : k2 = k1
      · subst h2
        simp [pushEntry, lookupMap]
      · simp [pushEntry, lookupMap, h2, Ne.symm h2]
    · have hpush : pushEntry ((k1, v) :: rest) k e = (k1, v) :: pushEntry rest k e := by
        simp [pushEntry, h1]
      by_cases h3 : k1 = k2
      · have hk2 : ¬ (k2 = k) := fun hh => h1 (h3.trans hh)
        rw [hpush]
        simp [lookupMap, h3, hk2]
      · rw [hpush]
        simp [lookupMap, h1, h3, ih]

theorem pushEntry_values (m : EntryMap) (k : FPath) (e : DirEntry) :
    ∀ kv ∈ pushEntry m k e, ∀ x ∈ kv.2, (∃ kv0 ∈ m, x ∈ kv0.2) ∨ x = e := by
  induction m with
  | nil =>
    intro kv hkv x hx
    simp [pushEntry] at hkv
    rw [hkv] at hx
    simp at hx
    exact Or.inr hx
  | cons kv1 rest ih =>
    obtain ⟨k1, v⟩ := kv1
    intro kv hkv x hx
    by_cases h1 : k1 = k
    · subst h1
      simp [pushEntry] at hkv
      rcases hkv with hkv | hkv
      · rw [hkv] at hx
        rcases List.mem_append.mp hx with h2 | h2
        · exact Or.inl ⟨(k1, v), by simp, h2⟩
        · simp at h2
          exact Or.inr h2
      · exact Or.inl ⟨kv, by simp [hkv], hx⟩
    · simp [pushEntry, h1] at hkv
      rcases hkv with hkv | hkv
      · exact Or.inl ⟨(k1, v), by simp, by rw [hkv] at hx; exact hx⟩
      · rcases ih kv hkv x hx with ⟨kv0, hkv0, hx0⟩ | hx0
        · exact Or.inl ⟨kv0, by simp [hkv0], hx0⟩
        · exact Or.inr hx0

theorem insertAll_lookup (es : List DirEntry) :
    ∀ (m m2 : EntryMap), insertAll m es = some m2 → ∀ k : FPath,
      (lookupMap m2 k).getD [] =
        (lookupMap m k).getD [] ++ es.filter (fun e => decide (parentOf e.path = some k)) ∧
      ((lookupMap m2 k).isSome = true ↔
        (lookupMap m k).isSome = true ∨ ∃ e ∈ es, parentOf e.path = some k) := by
  induction es with
  | nil =>
    intro m m2 h k
    unfold insertAll at h
    rw [Option.some.injEq] at h
    subst h
    simp
  | cons e rest ih =>
    intro m m2 h k
    unfold insertAll at h
    cases hp : parentOf e.path with
    | none => rw [hp] at h; cases h
    | some q =>
      rw [hp] at h
      obtain ⟨h1, h2⟩ := ih _ _ h k
      constructor
      · rw [h1, lookup_pushEntry]
        by_cases hk : k = q
        · subst hk
          simp [hp, List.filter_cons]
        · simp [hp, hk, Ne.symm hk, List.filter_cons]
      · rw [h2, lookup_pushEntry]
        by_cases hk : k = q
        · subst hk
          simp [hp]
        · simp [hp, hk, Ne.symm hk]

theorem insertAll_total (es : List DirEntry) :
    ∀ m : EntryMap, (∀ e ∈ es, e.path ≠ []) → ∃ m2, insertAll m es = some m2 := by
  induction es with
  | nil => exact fun m _ => ⟨m, rfl⟩
  | cons e rest ih =>
    intro m hall
    have hne : e.path ≠ [] := hall e (by simp)
    cases hp : e.path with
    | nil => exact absurd hp hne
    | cons a l =>
      obtain ⟨m2, hm2⟩ := ih (pushEntry m ((a :: l).dropLast) e) (fun x hx => hall x (by simp [hx]))
      refine ⟨m2, ?_⟩
      unfold insertAll
      rw [hp]
      simpa [parentOf] using hm2

theorem insertAll_values (es : List DirEntry) :
    ∀ (m m2 : EntryMap), insertAll m es = some m2 →
      ∀ kv ∈ m2, ∀ x ∈ kv.2, (∃ kv0 ∈ m, x ∈ kv0.2) ∨ x ∈ es := by
  induction es with
  | nil =>
    intro m m2 h kv hkv x hx
    unfold insertAll at h
    rw [Option.some.injEq] at h
    subst h
    exact Or.inl ⟨kv, hkv, hx⟩
  | cons e rest ih =>
    intro m m2 h kv hkv x hx
    unfold insertAll at h
    cases hp : parentOf e.path with
    | none => rw [hp] at h; cases h
    | some q =>
      rw [hp] at h
      rcases ih _ _ h kv hkv x hx with ⟨kv0, hkv0, hx0⟩ | hx0
      · rcases pushEntry_values m q e kv0 hkv0 x hx0 with ⟨kv1, hkv1, hx1⟩ | hx1
        · exact Or.inl ⟨kv1, hkv1, hx1⟩
        · exact Or.inr (by simp [hx1])
      · exact Or.inr (by simp [hx0])

theorem lookup_sortValues (m : EntryMap) (k : FPath) :
    lookupMap (sortValues m) k = (lookupMap m k).map sortEntries := by
  induction m with
  | nil => rfl
  | cons kv rest ih =>
    obtain ⟨k1, v⟩ := kv
    show lookupMap ((k1, sortEntries v) :: sortValues rest) k = _
    by_cases h : k1 = k
    · subst h
      simp [lookupMap]
    · simp [lookupMap, h, ih]

theorem sortValues_mem (m : EntryMap) (kv : FPath × List DirEntry) (h : kv ∈ sortValues m) :
    ∃ kv0 ∈ m, kv.1 = kv0.1 ∧ kv.2 = sortEntries kv0.2 := by
  obtain ⟨kv0, hkv0, heq⟩ := List.mem_map.mp h
  exact ⟨kv0, hkv0, by rw [← heq], by rw [← heq]⟩

/-- Decomposition of a successful `collect_entries` run. -/
theorem collect_entries_decomp (tpath : FPath) (fs : FS) (m : EntryMap)
    (h : collect_entries tpath fs = some m) :
    ∃ m1, insertAll [(tpath, [])] (walk tpath fs) = some m1 ∧ m = sortValues m1 := by
  unfold collect_entries at h
  cases hi : insertAll [(tpath, [])] (walk tpath fs) with
  | none => rw [hi] at h; cases h
  | some m1 =>
    rw [hi] at h
    have h2 : some (sortValues m1) = some m := h
    exact ⟨m1, rfl, (Option.some.inj h2).symm⟩

/-! ### Properties of the extractor -/

/-- Spec-side characterisation of the scanning loop: the trimmed first
non-blank line of the file, if any. -/
def firstNonBlank : List Str → Option Str
  | [] => none
  | l :: rest => if (trimStr l).isEmpty then firstNonBlank rest else some (trimStr l)

theorem scanLines_eq_firstNonBlank (ls : List Str) :
    scanLines ls =
      match firstNonBlank ls with
      | none => respFallback
      | some t =>
        if startsWithStr t "//".toList || startsWithStr t "#".toList then
          t.dropWhile markChar
        else respFallback := by
  induction ls with
  | nil => rfl
  | cons l rest ih =>
    unfold scanLines firstNonBlank
    cases h : (trimStr l).isEmpty
    · simp only [h, Bool.false_eq_true, if_false]
    · simp only [h, if_true]
      exact ih

theorem scanLines_of_none {ls : List Str} (hfb : firstNonBlank ls = none) :
    scanLines ls = respFallback := by
  rw [scanLines_eq_firstNonBlank, hfb]

theorem scanLines_of_some {ls : List Str} {t : Str} (hfb : firstNonBlank ls = some t) :
    scanLines ls =
      if (startsWithStr t "//".toList || startsWithStr t "#".toList) = true then
        t.dropWhile markChar
      else respFallback := by
  rw [scanLines_eq_firstNonBlank, hfb]

/-! ### Shape of the rendered lines -/

/-- The grammar of one rendered line: a prefix of 4-character units (one per
ancestor level) and a branch connector, then the entry's file name, and for
files the separator and the extracted responsibility. -/
def lineShape (rd : FPath → Option (List Str)) (st : List Bool) (lastFlag : Bool)
    (e : DirEntry) (line : Str) : Prop :=
  (e.isDir = true ∧ line = linePfx st lastFlag ++ e.fileName) ∨
  (e.isDir = false ∧
    line = linePfx st lastFlag ++ e.fileName ++ sepStr ++ get_responsibility rd e.path)

theorem print_list_shape (rcall : FPath → List Bool → List Str)
    (rd : FPath → Option (List Str)) (st : List Bool) (cs : List DirEntry) :
    ∀ line ∈ print_list rcall rd st cs,
      (∃ lastFlag e, e ∈ cs ∧ lineShape rd st lastFlag e line) ∨
      (∃ e lastFlag, e ∈ cs ∧ e.isDir = true ∧ line ∈ rcall e.path (st ++ [lastFlag])) := by
  induction cs with
  | nil => intro line h; simp [print_list] at h
  | cons e rest ih =>
    intro line h
    unfold print_list at h
    cases hd : e.isDir
    · simp only [hd, Bool.false_eq_true, if_false] at h
      rcases List.mem_cons.mp h with h1 | h1
      · exact Or.inl ⟨rest.isEmpty, e, by simp, Or.inr ⟨hd, h1⟩⟩
      · rcases ih line h1 with ⟨lf, e2, he2, hs⟩ | ⟨e2, lf, he2, hd2, hr⟩
        · exact Or.inl ⟨lf, e2, by simp [he2], hs⟩
        · exact Or.inr ⟨e2, lf, by simp [he2], hd2, hr⟩
    · simp only [hd, if_true] at h
      rcases List.mem_cons.mp h with h1 | h1
      · exact Or.inl ⟨rest.isEmpty, e, by simp, Or.inl ⟨hd, h1⟩⟩
      · rcases List.mem_append.mp h1 with h2 | h2
        · exact Or.inr ⟨e, rest.isEmpty, by simp, hd, h2⟩
        · rcases ih line h2 with ⟨lf, e2, he2, hs⟩ | ⟨e2, lf, he2, hd2, hr⟩
          · exact Or.inl ⟨lf, e2, by simp [he2], hs⟩
          · exact Or.inr ⟨e2, lf, by simp [he2], hd2, hr⟩

theorem print_tree_shape (rd : FPath → Option (List Str)) :
    ∀ (fuel : Nat) (m : EntryMap) (path : FPath) (st : List Bool) (line : Str),
      line ∈ print_tree rd fuel m path st →
      ∃ st2 lastFlag e, (∃ k v, lookupMap m k = some v ∧ e ∈ v) ∧
        (∃ tail, st2 = st ++ tail) ∧ lineShape rd st2 lastFlag e line := by
  intro fuel
  induction fuel with
  | zero => intro m path st line h; simp [print_tree] at h
  | succ n ih =>
    intro m path st line h
    unfold print_tree at h
    cases hl : lookupMap m path with
    | none => rw [hl] at h; simp at h
    | some children =>
      rw [hl] at h
      rcases print_list_shape _ rd st children line h with ⟨lf, e, he, hs⟩ | ⟨e, lf, he, hd, hr⟩
      · exact ⟨st, lf, e, ⟨path, children, hl, he⟩, ⟨[], by simp⟩, hs⟩
      · obtain ⟨st2, lf2, e2, hmem, ⟨tail, htail⟩, hs2⟩ := ih m e.path (st ++ [lf]) line hr
        refine ⟨st2, lf2, e2, hmem, ⟨lf :: tail, ?_⟩, hs2⟩
        rw [htail, List.append_assoc]
        rfl

theorem print_list_congr (r1 r2 : FPath → List Bool → List Str)
    (rd : FPath → Option (List Str)) (st : List Bool) (cs : List DirEntry)
    (h : ∀ p s, r1 p s = r2 p s) :
    print_list r1 rd st cs = print_list r2 rd st cs := by
  induction cs with
  | nil => rfl
  | cons e rest ih =>
    unfold print_list
    cases hd : e.isDir <;> simp [hd, ih, h]

theorem unitsStr_length (st : List Bool) : (unitsStr st).length = 4 * st.length := by
  induction st with
  | nil => rfl
  | cons b rest ih =>
    unfold unitsStr
    rw [List.length_append, ih]
    have h4 : (pfxUnit b).length = 4 := by cases b <;> rfl
    rw [h4]
    simp [List.length_cons]
    ring

theorem linePfx_length (st : List Bool) (lastFlag : Bool) :
    (linePfx st lastFlag).length = 4 * st.length + 4 := by
  unfold linePfx
  rw [List.length_append, unitsStr_length]
  have h4 : (branchStr lastFlag).length = 4 := by cases lastFlag <;> rfl
  rw [h4]

/-! ### Claims -/

theorem entry_le_imp {a b : DirEntry} (hle : entry_le a b = true) :
    (b.isDir = true → a.isDir = true) ∧
    (a.isDir = b.isDir →
      strLt (toLowerStr b.fileName) (toLowerStr a.fileName) = false) := by
  unfold entry_le at hle
  constructor
  · intro hb
    by_cases hd : a.isDir = b.isDir
    · exact hd.trans hb
    · rw [if_neg hd] at hle
      exact hle
  · intro hd
    rw [if_pos hd, Bool.not_eq_true'] at hle
    exact hle

/-- C1: in every value of the mapping produced by `collect_entries`, after
the post-walk sort all directory entries precede all file entries, and within
the directory group and the file group entries ascend by case-insensitive
(lowercased lexicographic) file name: pairwise, a later directory entry
forces the earlier entry to be a directory, and entries with equal
directory-flags have non-descending lowercased names. -/
theorem c1_sibling_order (tpath : FPath) (fs : FS) (m : EntryMap)
    (h : collect_entries tpath fs = some m) :
    ∀ kv ∈ m, kv.2.Pairwise (fun a b =>
      (b.isDir = true → a.isDir = true) ∧
      (a.isDir = b.isDir →
        strLt (toLowerStr b.fileName) (toLowerStr a.fileName) = false)) := by
  intro kv hkv
  obtain ⟨m1, hins, hm⟩ := collect_entries_decomp tpath fs m h
  subst hm
  obtain ⟨kv0, hkv0, hk1, hk2⟩ := sortValues_mem m1 kv hkv
  rw [hk2]
  exact List.Pairwise.imp (fun hle => entry_le_imp hle) (sortEntries_pairwise kv0.2)

/-- Witness for C1: a target `r` holding files `b.TXT`, `A.txt` and a
directory `Sub`; the sorted sibling list is `Sub`, `A.txt`, `b.TXT`. -/
theorem c1_witness :
    ([⟨[['r'], "Sub".toList], true⟩, ⟨[['r'], "A.txt".toList], false⟩,
      ⟨[['r'], "b.TXT".toList], false⟩] : List DirEntry).Pairwise (fun a b =>
      (b.isDir = true → a.isDir = true) ∧
      (a.isDir = b.isDir →
        strLt (toLowerStr b.fileName) (toLowerStr a.fileName) = false)) :=
  c1_sibling_order [['r']]
    (FS.dir "r".toList true
      [FS.file "b.TXT".toList, FS.dir "Sub".toList true [], FS.file "A.txt".toList])
    [([['r']], [⟨[['r'], "Sub".toList], true⟩, ⟨[['r'], "A.txt".toList], false⟩,
        ⟨[['r'], "b.TXT".toList], false⟩]),
     ([], [⟨[['r']], true⟩])]
    (by decide)
    (([['r']], [⟨[['r'], "Sub".toList], true⟩, ⟨[['r'], "A.txt".toList], false⟩,
        ⟨[['r'], "b.TXT".toList], false⟩]))
    (by decide)

/-- C2: `get_responsibility` returns the marker-stripped remainder of the
trimmed first non-blank line when that line starts with `//` or `#`, and the
fixed fallback string when the file cannot be opened, is empty or all-blank,
or its first non-blank line carries no marker. -/
theorem c2_responsibility (rd : FPath → Option (List Str)) (p : FPath) :
    (rd p = none → get_responsibility rd p = respFallback) ∧
    (∀ ls, rd p = some ls → firstNonBlank ls = none →
      get_responsibility rd p = respFallback) ∧
    (∀ ls t, rd p = some ls → firstNonBlank ls = some t →
      ((startsWithStr t "//".toList = true ∨ startsWithStr t "#".toList = true) →
        get_responsibility rd p = t.dropWhile markChar) ∧
      (startsWithStr t "//".toList = false → startsWithStr t "#".toList = false →
        get_responsibility rd p = respFallback)) := by
  refine ⟨?_, ?_, ?_⟩
  · intro h
    unfold get_responsibility
    rw [h]
  · intro ls h hfb
    unfold get_responsibility
    rw [h]
    show scanLines ls = _
    rw [scanLines_of_none hfb]
  · intro ls t h hfb
    constructor
    · intro hm
      unfold get_responsibility
      rw [h]
      show scanLines ls = _
      rw [scanLines_of_some hfb]
      rcases hm with hm | hm
      · rw [if_pos (by rw [hm]; simp)]
      · rw [if_pos (by rw [hm]; simp)]
    · intro h1 h2
      unfold get_responsibility
      rw [h]
      show scanLines ls = _
      rw [scanLines_of_some hfb, if_neg (by rw [h1, h2]; simp)]

/-- Witness for C2: the four spec examples plus the unopenable-file case. -/
theorem c2_witness :
    get_responsibility (fun _ => some [[], "// does X".toList]) [] = "does X".toList ∧
    get_responsibility (fun _ => some ["# does Y".toList]) [] = "does Y".toList ∧
    get_responsibility (fun _ => some [[], "does Z".toList]) [] = respFallback ∧
    get_responsibility (fun _ => some []) [] = respFallback ∧
    get_responsibility (fun _ => none) [] = respFallback := by
  refine ⟨?_, ?_, ?_, ?_, ?_⟩
  · exact (((c2_responsibility (fun _ => some [[], "// does X".toList]) []).2.2
      [[], "// does X".toList] "// does X".toList rfl (by decide)).1
      (Or.inl (by decide))).trans (by decide)
  · exact (((c2_responsibility (fun _ => some ["# does Y".toList]) []).2.2
      ["# does Y".toList] "# does Y".toList rfl (by decide)).1
      (Or.inr (by decide))).trans (by decide)
  · exact (((c2_responsibility (fun _ => some [[], "does Z".toList]) []).2.2
      [[], "does Z".toList] "does Z".toList rfl (by decide)).2 (by decide) (by decide))
  · exact ((c2_responsibility (fun _ => some []) []).2.1 [] rfl (by decide))
  · exact ((c2_responsibility (fun _ => none) []).1 rfl)

/-- C7: when the trimmed first non-blank line starts with `//` or `#`,
`get_responsibility` strips ALL leading whitespace, `/` and `#` characters
(not exactly one marker) before returning the remainder. -/
theorem c7_strip_all (rd : FPath → Option (List Str)) (p : FPath)
    (ls : List Str) (t : Str) (h : rd p = some ls) (hfb : firstNonBlank ls = some t)
    (hm : startsWithStr t "//".toList = true ∨ startsWithStr t "#".toList = true) :
    get_responsibility rd p = t.dropWhile markChar := by
  unfold get_responsibility
  rw [h]
  show scanLines ls = _
  rw [scanLines_of_some hfb]
  rcases hm with hm | hm
  · rw [if_pos (by rw [hm]; simp)]
  · rw [if_pos (by rw [hm]; simp)]

/-- Witness for C7: a first line `//// TODO` yields `TODO` — every leading
slash is removed, not just the two-character marker. -/
theorem c7_witness :
    get_responsibility (fun _ => some ["//// TODO".toList]) [] = "TODO".toList :=
  (c7_strip_all (fun _ => some ["//// TODO".toList]) [] ["//// TODO".toList]
    "//// TODO".toList rfl (by decide) (Or.inl (by decide))).trans (by decide)

theorem lookupMap_mem (m : EntryMap) (k : FPath) (v : List DirEntry)
    (h : lookupMap m k = some v) : (k, v) ∈ m := by
  induction m with
  | nil => cases h
  | cons kv rest ih =>
    obtain ⟨k1, v1⟩ := kv
    unfold lookupMap at h
    by_cases hb : k1 = k
    · subst hb
      rw [if_pos (by simp)] at h
      rw [← Option.some.inj h]
      simp
    · rw [if_neg (by simp [hb])] at h
      exact List.mem_cons_of_mem _ (ih h)

/-- C3: hidden entries are excluded entirely: every entry stored in any
value of the `collect_entries` mapping has a non-hidden file name; every
stored entry's path extends the target path by non-hidden components only
(so the subtree of a hidden directory is never walked); and every rendered
line renders the file name of such a non-hidden entry. -/
theorem c3_hidden_excluded (tpath : FPath) (fs : FS) (m : EntryMap)
    (h : collect_entries tpath fs = some m) :
    (∀ kv ∈ m, ∀ e ∈ kv.2, is_hidden e.fileName = false) ∧
    (∀ kv ∈ m, ∀ e ∈ kv.2,
      ∃ rel, e.path = tpath ++ rel ∧ ∀ nm ∈ rel, is_hidden nm = false) ∧
    (∀ rd fuel path st line, line ∈ print_tree rd fuel m path st →
      ∃ st2 lastFlag e, is_hidden e.fileName = false ∧
        lineShape rd st2 lastFlag e line) := by
  obtain ⟨m1, hins, hm⟩ := collect_entries_decomp tpath fs m h
  have hval : ∀ kv ∈ m, ∀ e ∈ kv.2, e ∈ walk tpath fs := by
    intro kv hkv e he
    subst hm
    obtain ⟨kv0, hkv0, hk1, hk2⟩ := sortValues_mem m1 kv hkv
    rw [hk2, mem_sortEntries] at he
    rcases insertAll_values (walk tpath fs) _ _ hins kv0 hkv0 e he with ⟨kv1, hkv1, hx⟩ | hx
    · simp only [List.mem_singleton] at hkv1
      rw [hkv1] at hx
      simp at hx
    · exact hx
  refine ⟨?_, ?_, ?_⟩
  · intro kv hkv e he
    exact walk_entry_not_hidden (hval kv hkv e he)
  · intro kv hkv e he
    exact walk_path_shape tpath fs e (hval kv hkv e he)
  · intro rd fuel path st line hline
    obtain ⟨st2, lf, e, ⟨k, v, hkv, he⟩, -, hs⟩ :=
      print_tree_shape rd fuel m path st line hline
    refine ⟨st2, lf, e, ?_, hs⟩
    exact walk_entry_not_hidden (hval (k, v) (lookupMap_mem m k v hkv) e he)

/-- Witness for C3: target `r` holding file `a`, hidden file `.secret` and
hidden directory `.git/x`; only `a` survives, and its name is not hidden. -/
theorem c3_witness :
    is_hidden (DirEntry.fileName ⟨[['r'], ['a']], false⟩) = false :=
  (c3_hidden_excluded [['r']]
    (FS.dir ['r'] true
      [FS.file ['a'], FS.file ".secret".toList, FS.dir ".git".toList true [FS.file ['x']]])
    [([['r']], [⟨[['r'], ['a']], false⟩]), ([], [⟨[['r']], true⟩])]
    (by decide)).1
    ([['r']], [⟨[['r'], ['a']], false⟩]) (by decide)
    ⟨[['r'], ['a']], false⟩ (by decide)

/-- One rendered line as the spec words it (C4): a directory line is exactly
the prefix followed by the file name; a file line is the prefix, the file
name, the separator and the extractor's result.  The prefix is one
4-character unit per recorded ancestor flag (blank for a last child,
vertical connector otherwise) and the branch connector chosen by `isLast`. -/
def specLine (rd : FPath → Option (List Str)) (ancestors : List Bool)
    (isLast : Bool) (e : DirEntry) : Str :=
  if e.isDir then linePfx ancestors isLast ++ e.fileName
  else linePfx ancestors isLast ++ e.fileName ++ sepStr ++ get_responsibility rd e.path

/-- Rendering of one sibling list as the spec words it (C4): the entry at
index `i` of a sibling list of length `count` is last exactly when
`i = count - 1`; its line uses the elbow connector exactly in that case, and
recursion into a directory records that directory's own last-child status as
the flag for its level. -/
def specRenderList (rcall : FPath → List Bool → List Str)
    (rd : FPath → Option (List Str)) (ancestors : List Bool) (count : Nat) :
    Nat → List DirEntry → List Str
  | _, [] => []
  | i, e :: rest =>
    let isLast : Bool := decide (i = count - 1)
    (if e.isDir then
      specLine rd ancestors isLast e :: rcall e.path (ancestors ++ [isLast])
    else
      [specLine rd ancestors isLast e]) ++ specRenderList rcall rd ancestors count (i + 1) rest

/-- The renderer transcribed from the spec's words (C4), with the explicit
index-based last-child test, to be compared with `print_tree`. -/
def specRender (rd : FPath → Option (List Str)) :
    Nat → EntryMap → FPath → List Bool → List Str
  | 0, _, _, _ => []
  | fuel + 1, m, path, ancestors =>
    match lookupMap m path with
    | none => []
    | some children =>
      specRenderList (fun p anc => specRender rd fuel m p anc) rd ancestors
        children.length 0 children

theorem specRenderList_eq_print_list (rcall : FPath → List Bool → List Str)
    (rd : FPath → Option (List Str)) (st : List Bool) :
    ∀ (cs : List DirEntry) (count i : Nat), i + cs.length = count →
      specRenderList rcall rd st count i cs = print_list rcall rd st cs := by
  intro cs
  induction cs with
  | nil => intro count i h; rfl
  | cons e rest ih =>
    intro count i h
    rw [List.length_cons] at h
    have hcount : i + 1 + rest.length = count := by omega
    have hlast : decide (i = count - 1) = rest.isEmpty := by
      cases rest with
      | nil =>
        simp at h ⊢
        omega
      | cons r rs =>
        simp at h ⊢
        omega
    unfold specRenderList print_list
    rw [hlast, ih count (i + 1) hcount]
    cases hd : e.isDir <;> simp [specLine, hd]

/-- C4: `print_tree` coincides with the renderer transcribed from the spec:
each line's prefix is one 4-character unit per ancestor level — `"    "`
exactly when that ancestor was the last child of its parent (the flag
recorded when recursing into it), `"│   "` otherwise — followed by `"└── "`
exactly when the current entry's index is the last of its sibling list
(`i = count - 1`) and `"├── "` otherwise; a directory line is exactly
prefix + name, a file line is prefix + name + `" - "` + the extractor's
result; and the prefix is exactly 4 characters per level plus 4. -/
theorem c4_line_format (rd : FPath → Option (List Str)) :
    (∀ (fuel : Nat) (m : EntryMap) (path : FPath) (st : List Bool),
      print_tree rd fuel m path st = specRender rd fuel m path st) ∧
    (∀ (st3 : List Bool) (lastFlag3 : Bool),
      (linePfx st3 lastFlag3).length = 4 * st3.length + 4) := by
  constructor
  · intro fuel
    induction fuel with
    | zero => intro m path st; rfl
    | succ n ih =>
      intro m path st
      unfold print_tree specRender
      cases hl : lookupMap m path with
      | none => rfl
      | some children =>
        show print_list (fun p s => print_tree rd n m p s) rd st children =
          specRenderList (fun p anc => specRender rd n m p anc) rd st
            children.length 0 children
        rw [print_list_congr (fun p s => print_tree rd n m p s)
          (fun p s => specRender rd n m p s) rd st children (fun p s => ih m p s)]
        exact (specRenderList_eq_print_list _ rd st children children.length 0
          (by simp)).symm
  · exact linePfx_length

/-- C8: the rendered output reads the entry map only through key lookups,
so any two maps with identical lookup behaviour — in particular the same
hash map enumerated in any two iteration orders — render byte-identical
output; with the traversal and extraction being pure functions of the
filesystem, a second run over an unmodified tree prints the same bytes. -/
theorem c8_lookup_deterministic (rd : FPath → Option (List Str)) (m1 m2 : EntryMap)
    (h : ∀ p, lookupMap m1 p = lookupMap m2 p) :
    ∀ fuel path st, print_tree rd fuel m1 path st = print_tree rd fuel m2 path st := by
  intro fuel
  induction fuel with
  | zero => intro path st; rfl
  | succ n ih =>
    intro path st
    unfold print_tree
    rw [h path]
    cases lookupMap m2 path with
    | none => rfl
    | some children =>
      exact print_list_congr _ _ rd st children (fun p s => ih p s)

/-- Witness for C8: two association lists that represent the same map (the
second holds a shadowed duplicate key) render identically. -/
theorem c8_witness :
    print_tree (fun _ => none) 3 [([['r']], [])] [['r']] [] =
      print_tree (fun _ => none) 3
        [([['r']], []), ([['r']], [⟨[['r'], ['x']], false⟩])] [['r']] [] :=
  c8_lookup_deterministic (fun _ => none) [([['r']], [])]
    [([['r']], []), ([['r']], [⟨[['r'], ['x']], false⟩])]
    (fun p => by
      simp only [lookupMap]
      cases hb : (([['r']] : FPath) == p) <;> simp [hb])
    3 [['r']] []

theorem isSome_map_sort (o : Option (List DirEntry)) :
    (o.map sortEntries).isSome = o.isSome := by
  cases o <;> rfl

theorem collect_entries_total (tpath : FPath) (fs : FS) (h : tpath ≠ []) :
    ∃ m, collect_entries tpath fs = some m := by
  have hall : ∀ e ∈ walk tpath fs, e.path ≠ [] := by
    intro e he
    obtain ⟨rel, hp, -⟩ := walk_path_shape tpath fs e he
    rw [hp]
    intro hc
    rcases List.append_eq_nil.mp hc with ⟨hc1, -⟩
    exact h hc1
  obtain ⟨m1, hm1⟩ := insertAll_total (walk tpath fs) [(tpath, [])] hall
  refine ⟨sortValues m1, ?_⟩
  unfold collect_entries
  rw [hm1]
  rfl

/-- C5 counterexample: for a target `r` containing a single empty directory
`a`, `collect_entries` succeeds but its mapping has NO key for the empty
directory `r/a`, while the claim requires an empty-sequence entry for every
non-hidden descendant directory. -/
theorem c5_counterexample :
    (collect_entries [['r']] (FS.dir ['r'] true [FS.dir ['a'] true []])).isSome = true ∧
    lookupMap ((collect_entries [['r']] (FS.dir ['r'] true [FS.dir ['a'] true []])).getD [])
      [['r'], ['a']] = none := by
  decide

/-- C5 amended: a key exists in the mapping exactly when it is the target
path itself (seeded up front) or the parent path of some walked entry.  A
directory with no surviving children (empty, unreadable, or all-hidden)
therefore gets no key of its own, and the root entry introduces the target's
parent path as a key. -/
theorem c5_keys (tpath : FPath) (fs : FS) (m : EntryMap)
    (h : collect_entries tpath fs = some m) (k : FPath) :
    (lookupMap m k).isSome = true ↔
      k = tpath ∨ ∃ e ∈ walk tpath fs, parentOf e.path = some k := by
  obtain ⟨m1, hins, hm⟩ := collect_entries_decomp tpath fs m h
  subst hm
  rw [lookup_sortValues, isSome_map_sort]
  obtain ⟨-, h2⟩ := insertAll_lookup (walk tpath fs) _ _ hins k
  rw [h2]
  constructor
  · rintro (h3 | h3)
    · left
      unfold lookupMap at h3
      by_cases hb : tpath = k
      · exact hb.symm
      · rw [if_neg (by simp [hb])] at h3
        cases h3
    · right
      exact h3
  · rintro (h3 | h3)
    · left
      subst h3
      simp [lookupMap]
    · right
      exact h3

/-- Witness for C5 at the counterexample tree and the missing key `r/a`. -/
theorem c5_witness :
    (lookupMap [([['r']], [⟨[['r'], ['a']], true⟩]), ([], [⟨[['r']], true⟩])]
        [['r'], ['a']]).isSome = true ↔
      [['r'], ['a']] = [['r']] ∨
        ∃ e ∈ walk [['r']] (FS.dir ['r'] true [FS.dir ['a'] true []]),
          parentOf e.path = some [['r'], ['a']] :=
  c5_keys [['r']] (FS.dir ['r'] true [FS.dir ['a'] true []])
    [([['r']], [⟨[['r'], ['a']], true⟩]), ([], [⟨[['r']], true⟩])]
    (by decide) [['r'], ['a']]

/-- C9: the grouping key is `entry.path().parent().unwrap()`: when the
target is the filesystem root `/` (empty path, no parent) the walk's root
entry makes the unwrap panic, so `collect_entries` returns `none`; for any
other target the unwrap never panics, and the root entry itself is filed
under the target's parent path — a key outside the target's subtree. -/
theorem c9_parent_unwrap :
    (∀ fs, collect_entries [] fs = none) ∧
    (∀ (tpath : FPath) (fs : FS), tpath ≠ [] →
      ∃ m, collect_entries tpath fs = some m ∧
        (is_hidden (entryFileName tpath) = false →
          ∃ v, lookupMap m tpath.dropLast = some v ∧
            (⟨tpath, fs.isDirFS⟩ : DirEntry) ∈ v)) := by
  constructor
  · intro fs
    have hroot : is_hidden (entryFileName ([] : FPath)) = false := by decide
    cases fs <;> simp [collect_entries, walk, hroot, insertAll, parentOf]
  · intro tpath fs ht
    obtain ⟨m, hm⟩ := collect_entries_total tpath fs ht
    refine ⟨m, hm, ?_⟩
    intro hnh
    obtain ⟨m1, hins, hmm⟩ := collect_entries_decomp tpath fs m hm
    subst hmm
    have hwalk : (⟨tpath, fs.isDirFS⟩ : DirEntry) ∈ walk tpath fs := by
      cases fs <;> simp [walk, FS.isDirFS, hnh]
    have hpar : parentOf tpath = some tpath.dropLast := by
      cases tpath with
      | nil => exact absurd rfl ht
      | cons a l => rfl
    obtain ⟨h1, h2⟩ := insertAll_lookup (walk tpath fs) _ _ hins tpath.dropLast
    have hsome : (lookupMap m1 tpath.dropLast).isSome = true := by
      rw [h2]
      exact Or.inr ⟨_, hwalk, hpar⟩
    cases hv : lookupMap m1 tpath.dropLast with
    | none => rw [hv] at hsome; cases hsome
    | some v =>
      refine ⟨sortEntries v, ?_, ?_⟩
      · rw [lookup_sortValues, hv]
        rfl
      · rw [mem_sortEntries]
        have hmem : (⟨tpath, fs.isDirFS⟩ : DirEntry) ∈
            (lookupMap m1 tpath.dropLast).getD [] := by
          rw [h1]
          apply List.mem_append_right
          rw [List.mem_filter]
          exact ⟨hwalk, by simp [hpar]⟩
        rw [hv] at hmem
        exact hmem

/-- Witness for C9: targeting `/` panics; targeting `r` succeeds. -/
theorem c9_witness :
    collect_entries [] (FS.dir ['/'] true [FS.file ['a']]) = none ∧
    (collect_entries [['r']] (FS.file ['r'])).isSome = true := by
  constructor
  · exact c9_parent_unwrap.1 (FS.dir ['/'] true [FS.file ['a']])
  · obtain ⟨m, hm, -⟩ := c9_parent_unwrap.2 [['r']] (FS.file ['r']) (by decide)
    rw [hm]
    rfl

/-- C10: if the target directory's own name starts with `.`, the filter
prunes the walk's root entry itself, the mapping is exactly the root key
with an empty sequence, and the renderer prints nothing — whatever the
directory contains. -/
theorem c10_hidden_target (tpath : FPath) (fs : FS) (rd : FPath → Option (List Str))
    (h : is_hidden (entryFileName tpath) = true) :
    collect_entries tpath fs = some [(tpath, [])] ∧
    ∀ fuel, print_tree rd fuel [(tpath, [])] tpath [] = [] := by
  have hw : walk tpath fs = [] := by
    cases fs <;> simp [walk, h]
  constructor
  · unfold collect_entries
    rw [hw]
    rfl
  · intro fuel
    cases fuel with
    | zero => rfl
    | succ n =>
      unfold print_tree
      have hl : lookupMap [(tpath, [])] tpath = some [] := by
        simp [lookupMap]
      rw [hl]
      rfl

/-- Witness for C10: a hidden target `.git` with a non-hidden child. -/
theorem c10_witness :
    collect_entries [".git".toList] (FS.dir ".git".toList true [FS.file ['a']]) =
      some [([".git".toList], [])] ∧
    print_tree (fun _ => none) 5 [([".git".toList], [])] [".git".toList] [] = [] := by
  obtain ⟨h1, h2⟩ := c10_hidden_target [".git".toList]
    (FS.dir ".git".toList true [FS.file ['a']]) (fun _ => none) (by decide)
  exact ⟨h1, h2 5⟩

/-- C6 counterexample: a run whose canonicalize step succeeded (target `/`)
still fails, via the parent-unwrap panic inside `collect_entries`; so the
fatal setup error is not the only failure mode. -/
theorem c6_counterexample :
    run (fun _ => none) (some ([], FS.dir ['/'] true [FS.file ['a']])) 5 =
      Except.error panicMsg ∧ panicMsg ≠ canonErrMsg := by
  constructor
  · rfl
  · decide

/-- C6 amended: besides the fatal canonicalize error exactly one other
failure mode exists — the parent-unwrap panic on a filesystem-root target;
for every non-root target the run succeeds, an unreadable directory merely
loses its children while it and its siblings are still walked, and an
unopenable file degrades to the fallback string. -/
theorem c6_error_handling (rd : FPath → Option (List Str)) :
    (∀ fuel, run rd none fuel = Except.error canonErrMsg) ∧
    (∀ (tpath : FPath) (fs : FS) (fuel : Nat), tpath ≠ [] →
      ∃ out, run rd (some (tpath, fs)) fuel = Except.ok out) ∧
    (∀ dp nm cs, walk dp (FS.dir nm false cs) = walk dp (FS.dir nm true [])) ∧
    (∀ dp c cs, walkList dp (c :: cs) = walk (dp ++ [FS.name c]) c ++ walkList dp cs) ∧
    (∀ p, rd p = none → get_responsibility rd p = respFallback) := by
  refine ⟨fun fuel => rfl, ?_, ?_, ?_, ?_⟩
  · intro tpath fs fuel ht
    obtain ⟨m, hm⟩ := collect_entries_total tpath fs ht
    refine ⟨print_tree rd fuel m tpath [], ?_⟩
    unfold run
    show (match collect_entries tpath fs with
      | none => Except.error panicMsg
      | some m2 => Except.ok (print_tree rd fuel m2 tpath [])) = _
    rw [hm]
  · intro dp nm cs
    rfl
  · intro dp c cs
    rfl
  · intro p hp
    unfold get_responsibility
    rw [hp]

/-- Witness for C6: a successful run over a tree with an unreadable
directory, plus the fallback for an unopenable file. -/
theorem c6_witness :
    run (fun _ => none) none 3 = Except.error canonErrMsg ∧
    (∃ out, run (fun _ => none)
      (some ([['r']], FS.dir ['r'] true
        [FS.dir "bad".toList false [FS.file ['x']], FS.file ['z']])) 3 =
      Except.ok out) ∧
    get_responsibility (fun _ => none) [['r'], ['z']] = respFallback := by
  obtain ⟨h1, h2, h3, h4, h5⟩ := c6_error_handling (fun _ => none)
  exact ⟨h1 3, h2 [['r']] _ 3 (by decide), h5 _ rfl⟩
